import Mathlib

/-!
Verification of the tabular export engine of the graphboarder repository.

The definitions below are a shallow embedding of
`src/lib/utils/resultExport.ts` (row discovery) and
`src/lib/utils/exportUtils.ts` (flattening and CSV generation).
JavaScript values reachable from a JSON-like payload are modelled by the
inductive type `Value`; JS objects are ordered association lists, mirroring
JS insertion-ordered string keys.  Machine numbers in the payloads under
test are small integers, modelled by `Int`.
-/

namespace Graphboarder

/-- A JSON-like runtime value: `null`, `undefined`, booleans, numbers,
strings, `Date` instances (payload: timestamp), arrays and plain objects
(ordered key/value entry lists, as produced by `Object.entries`). -/
inductive Value where
  | vnull
  | vundef
  | vbool (b : Bool)
  | vnum (n : Int)
  | vstr (s : String)
  | vdate (t : Nat)
  | varr (elems : List Value)
  | vobj (entries : List (String × Value))

mutual

/-- Structural size of a value, used as a fuel bound for the traversal
loops (one plus the total size of all nested values). -/
def Value.size : Value → Nat
  | .varr l => 1 + sizeList l
  | .vobj l => 1 + sizeEntries l
  | _ => 1

/-- Total size of a list of values. -/
def sizeList : List Value → Nat
  | [] => 0
  | v :: t => Value.size v + sizeList t

/-- Total size of the values of an entry list. -/
def sizeEntries : List (String × Value) → Nat
  | [] => 0
  | (_, v) :: t => Value.size v + sizeEntries t

end

/-- `typeof value === 'object' && value !== null && !Array.isArray(value)`
from `resultExport.ts`.  Note that a JS `Date` satisfies this test: its
`typeof` is `'object'` and it is not an array. -/
def isPlainObject : Value → Bool
  | .vobj _ => true
  | .vdate _ => true
  | _ => false

/-- `payload === null || payload === undefined`. -/
def isNullish : Value → Bool
  | .vnull => true
  | .vundef => true
  | _ => false

/-- `Object.entries(value)` — own enumerable entries in insertion order.
A `Date` has no own enumerable properties, so it yields `[]`. -/
def objEntries : Value → List (String × Value)
  | .vobj l => l
  | _ => []

/-- `Object.keys(value)`. -/
def objKeys (v : Value) : List String := (objEntries v).map (·.1)

/-- JS `String.prototype.toLowerCase` (ASCII-adequate for the token sets
in play). -/
def lowerStr (s : String) : String := ⟨s.data.map Char.toLower⟩

/-- Does `needle` occur as a contiguous sublist of `haystack`? -/
def charsIncludes (needle : List Char) : List Char → Bool
  | [] => needle.isEmpty
  | b :: bs => List.isPrefixOf needle (b :: bs) || charsIncludes needle bs

/-- JS `haystack.includes(needle)` — substring containment. -/
def strIncludes (haystack needle : String) : Bool :=
  charsIncludes needle.data haystack.data

/-- `scorePath` from `resultExport.ts`: +2 per preferred token that occurs
(case-insensitively) as a substring of the path. -/
def scorePath (path : String) (preferredPathTokens : List String) : Nat :=
  preferredPathTokens.foldl
    (fun score token =>
      if strIncludes (lowerStr path) (lowerStr token) then score + 2 else score)
    0

/-- `containsRequiredTokens` from `resultExport.ts`. -/
def containsRequiredTokens (path : String) (requiredTokens : List String) : Bool :=
  if requiredTokens.isEmpty then true
  else requiredTokens.all fun token => strIncludes (lowerStr path) (lowerStr token)

/-- `containsExcludedTokens` from `resultExport.ts`. -/
def containsExcludedTokens (path : String) (excludedTokens : List String) : Bool :=
  excludedTokens.any fun token => strIncludes (lowerStr path) (lowerStr token)

/-- `hasObjectEntries` from `resultExport.ts`. -/
def hasObjectEntries (list : List Value) (allowEmptyObjectRows : Bool) : Bool :=
  if allowEmptyObjectRows then list.any isPlainObject
  else list.any fun item => isPlainObject item && (objKeys item).length > 0

/-- The `ExportSearchOptions` interface: every field optional. -/
structure ExportSearchOptions where
  maxDepth : Option Int := none
  minRows : Option Int := none
  preferredPathTokens : Option (List String) := none
  excludedPathTokens : Option (List String) := none
  requirePathTokens : Option (List String) := none
  preferShallow : Option Bool := none
  preferLargeDatasets : Option Bool := none
  allowEmptyObjectRows : Option Bool := none
  maxCandidates : Option Int := none

/-- `ExportSearchInput = ExportSearchOptions | number`: legacy callers pass
`maxDepth` as a bare number. -/
inductive ExportSearchInput where
  | opts (o : ExportSearchOptions)
  | num (n : Int)

/-- `Required<ExportSearchOptions>` after normalization. -/
structure SearchOptions where
  maxDepth : Int
  minRows : Int
  preferredPathTokens : List String
  excludedPathTokens : List String
  requirePathTokens : List String
  preferShallow : Bool
  preferLargeDatasets : Bool
  allowEmptyObjectRows : Bool
  maxCandidates : Int

/-- `Number.MAX_SAFE_INTEGER`. -/
def maxSafeInteger : Int := 9007199254740991

/-- Legacy normalization: `typeof options === 'number' ? { maxDepth: options } : options`. -/
def normalizeOptions : ExportSearchInput → ExportSearchOptions
  | .num n => { maxDepth := some n }
  | .opts o => o

/-- Default-filling of the search options (the `searchOptions` record built
inside `findExportableRows`). -/
def resolveOptions (input : ExportSearchInput) : SearchOptions :=
  let n := normalizeOptions input
  { maxDepth := n.maxDepth.getD 6
    minRows := n.minRows.getD 0
    preferredPathTokens := n.preferredPathTokens.getD ["items", "nodes", "results", "edges"]
    excludedPathTokens := n.excludedPathTokens.getD ["meta", "error"]
    requirePathTokens := n.requirePathTokens.getD []
    preferShallow := n.preferShallow.getD true
    preferLargeDatasets := n.preferLargeDatasets.getD true
    allowEmptyObjectRows := n.allowEmptyObjectRows.getD false
    maxCandidates := n.maxCandidates.getD maxSafeInteger }

/-- The `ExportableRows` result record. -/
structure ExportableRows where
  rows : List Value
  path : String
  depth : Nat
  score : Nat
  candidateCount : Nat
  inspectedNodeCount : Nat

/-- `scoreCandidate` from `resultExport.ts`.  `Math.max(0, a - b)` and
`Math.floor` on the non-negative quantities involved coincide with `Nat`
truncated subtraction and division. -/
def scoreCandidate (path : String) (depth : Nat) (rows : List Value)
    (o : SearchOptions) : Nat :=
  let rowScore := if o.preferLargeDatasets then min (rows.length * 2) 40
    else min rows.length 20
  let depthScore := if o.preferShallow then 20 - depth * 5 else 5 - depth / 2
  let tokenScore := scorePath path o.preferredPathTokens
  rowScore + depthScore + tokenScore

/-- The row filter applied to a candidate array's elements
(`value.filter(...)` in `findExportableRows`). -/
def rowFilter (allowEmptyObjectRows : Bool) (item : Value) : Bool :=
  isPlainObject item && (allowEmptyObjectRows || (objKeys item).length > 0)

/-- A breadth-first work-queue entry (`{ value, path, depth }`). -/
structure QItem where
  value : Value
  path : String
  depth : Nat

/-- The queue entries pushed for a plain object's children
(`queue.push({ value: child, path: path + '.' + key, depth: depth + 1 })`). -/
def childItems (it : QItem) : List QItem :=
  (objEntries it.value).map fun e => ⟨e.2, it.path ++ "." ++ e.1, it.depth + 1⟩

/-- Measure used to justify termination of the traversal loop: total size
of the queued values. -/
def queueSize (q : List QItem) : Nat := (q.map fun it => it.value.size).sum

/-- Full observable outcome of one traversal: `best` is the function's
return value; `cands`, `broke`, `candidateTotal` and `inspectedTotal` are
ghost observers recording every candidate record ever constructed (in
discovery order), whether traversal stopped early (via the `maxCandidates`
`break`), and the final values of the two counters — they do not influence
`best`. -/
structure SearchTrace where
  best : Option ExportableRows
  cands : List ExportableRows
  broke : Bool
  candidateTotal : Nat
  inspectedTotal : Nat

/-- The `while (queue.length > 0)` loop of `findExportableRows`, fuelled:
the fuel is a bound on the number of iterations, strictly larger than
`queueSize` of the queue at every call site (each iteration removes one
item and adds items of strictly smaller total size, so the loop performs
at most `queueSize` iterations and the out-of-fuel branch is never
taken).  Branches follow the source order: increment `inspectedNodeCount`;
depth guard; excluded-token guard; array handling (required tokens, empty
array, object entries, row filter, `minRows`, `maxCandidates` break,
scoring, best replacement on strictly greater score); otherwise plain
objects enqueue their children. -/
def searchLoop (o : SearchOptions) :
    Nat → List QItem → Option ExportableRows → Nat → Nat → SearchTrace
  | _, [], best, candidateCount, inspectedNodeCount =>
    ⟨best, [], false, candidateCount, inspectedNodeCount⟩
  | 0, _ :: _, best, candidateCount, inspectedNodeCount =>
    ⟨best, [], true, candidateCount, inspectedNodeCount⟩
  | fuel + 1, item :: rest, best, candidateCount, inspectedNodeCount =>
    let inspected := inspectedNodeCount + 1
    if (item.depth : Int) > o.maxDepth then
      searchLoop o fuel rest best candidateCount inspected
    else if containsExcludedTokens item.path o.excludedPathTokens then
      searchLoop o fuel rest best candidateCount inspected
    else
      match item.value with
      | .varr elems =>
        if ¬ containsRequiredTokens item.path o.requirePathTokens then
          searchLoop o fuel rest best candidateCount inspected
        else if elems.length = 0 then
          if o.minRows = 0 then
            let c0 : ExportableRows := ⟨[], item.path, item.depth, 0, candidateCount, inspected⟩
            let best2 := if best.isNone then some c0 else best
            let t := searchLoop o fuel rest best2 candidateCount inspected
            { t with cands := c0 :: t.cands }
          else
            searchLoop o fuel rest best candidateCount inspected
        else if ¬ hasObjectEntries elems o.allowEmptyObjectRows then
          searchLoop o fuel rest best candidateCount inspected
        else
          let rows := elems.filter (rowFilter o.allowEmptyObjectRows)
          if (rows.length : Int) < o.minRows then
            searchLoop o fuel rest best candidateCount inspected
          else if (candidateCount : Int) ≥ o.maxCandidates then
            ⟨best, [], true, candidateCount, inspected⟩
          else
            let cc := candidateCount + 1
            let score := scoreCandidate item.path item.depth rows o
            let c : ExportableRows := ⟨rows, item.path, item.depth, score, cc, inspected⟩
            let best2 := match best with
              | none => some c
              | some b => if score > b.score then some c else some b
            let t := searchLoop o fuel rest best2 cc inspected
            { t with cands := c :: t.cands }
      | _ =>
        if isPlainObject item.value then
          searchLoop o fuel (rest ++ childItems item) best candidateCount inspected
        else
          searchLoop o fuel rest best candidateCount inspected

/-- The traversal of `findExportableRows`, with ghost observers.  The
initial fuel `payload.size + 1` strictly exceeds the initial queue size,
so the fuelled loop agrees with the source's unbounded `while` loop. -/
def findExportableRowsTrace (payload : Value)
    (options : ExportSearchInput := .opts {}) : SearchTrace :=
  if isNullish payload then ⟨none, [], false, 0, 0⟩
  else
    let searchOptions := resolveOptions options
    searchLoop searchOptions (payload.size + 1) [⟨payload, "root", 0⟩] none 0 0

/-- `findExportableRows` from `resultExport.ts`: `null`/`undefined`
payloads return `null` immediately; otherwise the best candidate found by
the traversal (or `null`). -/
def findExportableRows (payload : Value)
    (options : ExportSearchInput := .opts {}) : Option ExportableRows :=
  (findExportableRowsTrace payload options).best

/-! ### CSV conversion (`src/lib/utils/exportUtils.ts`) -/

/-- JS property assignment `acc[key] = v`: updates the value in place when
the key is already present (keeping its position), appends otherwise. -/
def objInsert (acc : List (String × Value)) (k : String) (v : Value) :
    List (String × Value) :=
  if acc.any (fun e => e.1 == k) then
    acc.map fun e => if e.1 == k then (k, v) else e
  else acc ++ [(k, v)]

/-- `Object.assign(acc, other)`: assigns `other`'s entries into `acc` in
order. -/
def objAssign (acc other : List (String × Value)) : List (String × Value) :=
  other.foldl (fun a e => objInsert a e.1 e.2) acc

/-- The key written by `flattenObject` for key `k` under accumulated
prefix `pre`: `const pre = prefix.length ? prefix + '.' : ''; acc[pre + k]`. -/
def dottedKey (pre k : String) : String :=
  (if pre.length ≠ 0 then pre ++ "." else "") ++ k

/-- The `reduce` body of `flattenObject` from `exportUtils.ts`, fuelled
(the fuel is a bound on the recursion, with `sizeEntries obj` always
sufficient, so the out-of-fuel branch is never taken): nested values
satisfying `typeof value === 'object' && value !== null &&
!Array.isArray(value)` are recursively flattened and assigned into the
accumulator; all other values are written under their dotted key. -/
def flattenEntriesF : Nat → String → List (String × Value) →
    List (String × Value) → List (String × Value)
  | _, _, [], acc => acc
  | 0, _, _ :: _, acc => acc
  | fuel + 1, pre, (k, v) :: rest, acc =>
    if isPlainObject v then
      flattenEntriesF fuel pre rest
        (objAssign acc (flattenEntriesF fuel (dottedKey pre k) (objEntries v) []))
    else
      flattenEntriesF fuel pre rest (objInsert acc (dottedKey pre k) v)

/-- `flattenObject(obj, prefix = '')` from `exportUtils.ts`. -/
def flattenObject (obj : List (String × Value)) (pre : String := "") :
    List (String × Value) :=
  flattenEntriesF (sizeEntries obj) pre obj []

/-- JS `String(value)` for the values that can reach a CSV cell, fuelled
for the array case (`Array.prototype.toString` joins the elements with
`','`, rendering `null`/`undefined` elements as empty).  The string
produced for a `Date` is host/locale dependent; the stand-in below is
deterministic and is never relied upon by a claim. -/
def jsToStringF : Value → Nat → String
  | .vnull, _ => "null"
  | .vundef, _ => "undefined"
  | .vbool b, _ => cond b "true" "false"
  | .vnum n, _ => toString n
  | .vstr s, _ => s
  | .vdate t, _ => "[Date:" ++ toString t ++ "]"
  | .vobj _, _ => "[object Object]"
  | .varr _, 0 => ""
  | .varr l, fuel + 1 =>
    String.intercalate ","
      (l.map fun e => match e with
        | .vnull => ""
        | .vundef => ""
        | e2 => jsToStringF e2 fuel)

/-- JS `String(value)`. -/
def jsToString (v : Value) : String := jsToStringF v v.size

/-- The cell-escaping step of `convertArrayToCSV`: quote (doubling
embedded double quotes) exactly when the string contains a comma, a
double quote or a newline. -/
def csvEscape (s : String) : String :=
  if s.data.contains ',' || s.data.contains '"' || s.data.contains '\n' then
    "\"" ++ ⟨replaceQuotes s.data⟩ ++ "\""
  else s
where
  /-- `stringVal.replace(/"/g, '""')` over the character list. -/
  replaceQuotes : List Char → List Char
    | [] => []
    | c :: rest => if c = '"' then '"' :: '"' :: replaceQuotes rest
      else c :: replaceQuotes rest

/-- One cell of the emitted CSV: `row[header]`, with `null`, `undefined`
and missing values rendered as the empty string, all else stringified and
escaped. -/
def csvCell (row : List (String × Value)) (header : String) : String :=
  match row.lookup header with
  | none => ""
  | some .vnull => ""
  | some .vundef => ""
  | some v => csvEscape (jsToString v)

/-- `convertArrayToCSV` from `exportUtils.ts`: flatten every row, collect
the headers (union of flattened keys, first-seen order, deduplicated),
then emit the header line and one line per row, comma-separated and
newline-joined. -/
def convertArrayToCSV (data : List (List (String × Value))) : String :=
  if data.length = 0 then ""
  else
    let flatData := data.map fun item => flattenObject item ""
    let headers := (flatData.foldl (fun keys obj => keys ++ obj.map (·.1)) []).eraseDups
    let csvLines := String.intercalate "," headers ::
      flatData.map fun row => String.intercalate "," (headers.map (csvCell row))
    String.intercalate "\n" csvLines

/-! ### Spec-modelled definitions

The enhanced export pipeline referenced by the repository's test files
(`convertArrayToCSVWithMetadata` with `excelSafeMode`, and the
`maxInspectedNodes` discovery guard) is not present under `src/`; only its
tests mention it.  The definitions in this section are modelled from the
spec's words. -/

/-- The single-quote character used by spreadsheet-injection hardening. -/
def singleQuote : String := (Char.ofNat 39).toString

/-- Modelled from the spec: the `excelSafeMode` spreadsheet-injection
hardening of the cell serializer, absent from
`src/lib/utils/exportUtils.ts` (only its tests reference it) — "if the
cell begins with `=`, `+`, `-`, or `@`, and hardening is enabled, prefix
with a single quote character", applied before final CSV escaping. -/
def hardenCell (excelSafeMode : Bool) (s : String) : String :=
  if excelSafeMode &&
      (match s.data with
       | [] => false
       | c :: _ => c == '=' || c == '+' || c == '-' || c == '@') then
    singleQuote ++ s
  else s

/-- Modelled from the spec: CSV conversion with the `excelSafeMode`
option (absent from `src/lib/utils/exportUtils.ts`); identical to
`convertArrayToCSV` except that every serialized cell passes through
`hardenCell` before the final CSV escaping. -/
def convertArrayToCSVSafe (excelSafeMode : Bool)
    (data : List (List (String × Value))) : String :=
  if data.length = 0 then ""
  else
    let flatData := data.map fun item => flattenObject item ""
    let headers := (flatData.foldl (fun keys obj => keys ++ obj.map (·.1)) []).eraseDups
    let cell := fun (row : List (String × Value)) (header : String) =>
      match row.lookup header with
      | none => ""
      | some .vnull => ""
      | some .vundef => ""
      | some v => csvEscape (hardenCell excelSafeMode (jsToString v))
    let csvLines := String.intercalate "," headers ::
      flatData.map fun row => String.intercalate "," (headers.map (cell row))
    String.intercalate "\n" csvLines

/-- Modelled from the spec: the traversal of `findExportableRows` extended
with the `maxInspectedNodes` guard (absent from
`src/lib/utils/resultExport.ts`; only its tests reference it) — "hard cap
on total nodes visited before traversal stops (returns null if no
candidate found yet)".  Before a node is taken from the queue, traversal
stops if the number of inspected nodes has reached the cap; all other
branches are those of `searchLoop`.  Returns the best candidate so far
and the total number of nodes inspected. -/
def specSearchLoop (o : SearchOptions) (maxInspectedNodes : Nat) :
    Nat → List QItem → Option ExportableRows → Nat → Nat →
    Option ExportableRows × Nat
  | _, [], best, _, inspectedNodeCount => (best, inspectedNodeCount)
  | 0, _ :: _, best, _, inspectedNodeCount => (best, inspectedNodeCount)
  | fuel + 1, item :: rest, best, candidateCount, inspectedNodeCount =>
    if inspectedNodeCount ≥ maxInspectedNodes then (best, inspectedNodeCount)
    else
      let inspected := inspectedNodeCount + 1
      if (item.depth : Int) > o.maxDepth then
        specSearchLoop o maxInspectedNodes fuel rest best candidateCount inspected
      else if containsExcludedTokens item.path o.excludedPathTokens then
        specSearchLoop o maxInspectedNodes fuel rest best candidateCount inspected
      else
        match item.value with
        | .varr elems =>
          if ¬ containsRequiredTokens item.path o.requirePathTokens then
            specSearchLoop o maxInspectedNodes fuel rest best candidateCount inspected
          else if elems.length = 0 then
            if o.minRows = 0 ∧ best.isNone then
              specSearchLoop o maxInspectedNodes fuel rest
                (some ⟨[], item.path, item.depth, 0, candidateCount, inspected⟩)
                candidateCount inspected
            else
              specSearchLoop o maxInspectedNodes fuel rest best candidateCount inspected
          else if ¬ hasObjectEntries elems o.allowEmptyObjectRows then
            specSearchLoop o maxInspectedNodes fuel rest best candidateCount inspected
          else
            let rows := elems.filter (rowFilter o.allowEmptyObjectRows)
            if (rows.length : Int) < o.minRows then
              specSearchLoop o maxInspectedNodes fuel rest best candidateCount inspected
            else if (candidateCount : Int) ≥ o.maxCandidates then
              (best, inspected)
            else
              let cc := candidateCount + 1
              let score := scoreCandidate item.path item.depth rows o
              let best2 := match best with
                | none => some (⟨rows, item.path, item.depth, score, cc, inspected⟩ : ExportableRows)
                | some b => if score > b.score then
                    some ⟨rows, item.path, item.depth, score, cc, inspected⟩
                  else some b
              specSearchLoop o maxInspectedNodes fuel rest best2 cc inspected
        | _ =>
          if isPlainObject item.value then
            specSearchLoop o maxInspectedNodes fuel (rest ++ childItems item) best
              candidateCount inspected
          else
            specSearchLoop o maxInspectedNodes fuel rest best candidateCount inspected

/-- Modelled from the spec: `findExportableRows` with the
`maxInspectedNodes` option supplied (see `specSearchLoop`). -/
def findExportableRowsSpec (payload : Value) (options : ExportSearchInput)
    (maxInspectedNodes : Nat) : Option ExportableRows × Nat :=
  if isNullish payload then (none, 0)
  else
    let searchOptions := resolveOptions options
    specSearchLoop searchOptions maxInspectedNodes (payload.size + 1)
      [⟨payload, "root", 0⟩] none 0 0

/-! ### Candidate-selection fold -/

/-- The best-candidate replacement policy of `findExportableRows`, as a
fold over a list of candidates in discovery order: the current best is
replaced only on a strictly greater score. -/
def pickBest (best : Option ExportableRows) (l : List ExportableRows) :
    Option ExportableRows :=
  l.foldl
    (fun b c => match b with
      | none => some c
      | some b0 => if c.score > b0.score then some c else some b0)
    best

/-! ### Concrete payloads used by individual claims -/

/-- The payload `{ data: { users: [{id:1,name:"Ana"}], meta: {total:1} } }`. -/
def payloadC1 : Value :=
  .vobj [("data", .vobj [
    ("users", .varr [.vobj [("id", .vnum 1), ("name", .vstr "Ana")]]),
    ("meta", .vobj [("total", .vnum 1)])])]

/-- A payload with three sibling qualifying arrays
`{ data: { first: [{id:1}], second: [{id:2}], third: [{id:3}] } }`. -/
def payloadC3 : Value :=
  .vobj [("data", .vobj [
    ("first", .varr [.vobj [("id", .vnum 1)]]),
    ("second", .varr [.vobj [("id", .vnum 2)]]),
    ("third", .varr [.vobj [("id", .vnum 3)]])])]

/-- The payload `{ data: { a: { b: { c: [{id:1}] } } } }` from the
`maxInspectedNodes` test. -/
def payloadC6 : Value :=
  .vobj [("data", .vobj [("a", .vobj [("b", .vobj [
    ("c", .varr [.vobj [("id", .vnum 1)]])])])])]

/-- A payload whose winning candidate is found strictly before traversal
ends: `{ data: { users: [{id:1},{id:2}], more: [{id:3}] } }`. -/
def payloadC10 : Value :=
  .vobj [("data", .vobj [
    ("users", .varr [.vobj [("id", .vnum 1)], .vobj [("id", .vnum 2)]]),
    ("more", .varr [.vobj [("id", .vnum 3)]])])]

/-! ### Size lemmas -/

/-- Every value has positive size. -/
lemma Value.size_pos (v : Value) : 0 < v.size := by
  cases v <;> simp [Value.size]

/-- `sizeEntries` is the sum of the sizes of the entry values. -/
lemma sizeEntries_eq_sum (l : List (String × Value)) :
    sizeEntries l = (l.map fun e => e.2.size).sum := by
  induction l with
  | nil => simp [sizeEntries]
  | cons e t ih => obtain ⟨k, v⟩ := e; simp [sizeEntries, ih]

/-- `queueSize` distributes over cons. -/
lemma queueSize_cons (it : QItem) (q : List QItem) :
    queueSize (it :: q) = it.value.size + queueSize q := by
  simp [queueSize]

/-- `queueSize` distributes over append. -/
lemma queueSize_append (q₁ q₂ : List QItem) :
    queueSize (q₁ ++ q₂) = queueSize q₁ + queueSize q₂ := by
  simp [queueSize]

/-- The children pushed for a node have strictly smaller total size than
the node's value, so the traversal measure decreases. -/
lemma queueSize_childItems (it : QItem) : queueSize (childItems it) < it.value.size := by
  have h : queueSize (childItems it) = sizeEntries (objEntries it.value) := by
    simp only [queueSize, childItems, List.map_map, sizeEntries_eq_sum]
    rfl
  rw [h]
  cases hv : it.value <;> simp [objEntries, sizeEntries, Value.size]

/-! ### The best candidate as a fold over the discovered candidates -/

/-- Unfolding `pickBest` over a cons: the head candidate is folded into
the running best exactly as the source's replacement step does. -/
lemma pickBest_cons (b : Option ExportableRows) (c : ExportableRows)
    (l : List ExportableRows) :
    pickBest b (c :: l) =
      pickBest (match b with
        | none => some c
        | some b0 => if c.score > b0.score then some c else some b0) l := rfl

/-- A zero-score candidate (the empty-array placeholder) is folded in
exactly by "install only if there is no best yet". -/
lemma pickBest_cons_zero (b : Option ExportableRows) (c0 : ExportableRows)
    (l : List ExportableRows) (h : c0.score = 0) :
    pickBest b (c0 :: l) = pickBest (if b.isNone then some c0 else b) l := by
  rw [pickBest_cons]
  cases b with
  | none => rfl
  | some b0 => simp [h]

/-- The returned best candidate of the traversal loop is the `pickBest`
fold of the initial best over the candidates in discovery order: the
source's replacement policy (strictly greater score wins) is this fold. -/
lemma searchLoop_best_eq_pickBest (o : SearchOptions) :
    ∀ fuel q best cc ic, queueSize q < fuel →
      (searchLoop o fuel q best cc ic).best =
        pickBest best (searchLoop o fuel q best cc ic).cands := by
  intro fuel
  induction fuel with
  | zero => intro q best cc ic h; exact absurd h (by omega)
  | succ fuel ih =>
    intro q best cc ic h
    cases q with
    | nil => simp [searchLoop, pickBest]
    | cons item rest =>
      have hpos := Value.size_pos item.value
      rw [queueSize_cons] at h
      have hrest : queueSize rest < fuel := by omega
      have hrest2 : queueSize (rest ++ childItems item) < fuel := by
        have := queueSize_childItems item
        rw [queueSize_append]; omega
      simp only [searchLoop]
      split
      · exact ih _ _ _ _ hrest
      · split
        · exact ih _ _ _ _ hrest
        · split
          · split
            · exact ih _ _ _ _ hrest
            · split
              · split
                · rw [pickBest_cons_zero best _ _ rfl]
                  exact ih _ _ _ _ hrest
                · exact ih _ _ _ _ hrest
              · split
                · exact ih _ _ _ _ hrest
                · split
                  · exact ih _ _ _ _ hrest
                  · split
                    · simp [pickBest]
                    · rw [pickBest_cons]
                      exact ih _ _ _ _ hrest
          · split
            · exact ih _ _ _ _ hrest2
            · exact ih _ _ _ _ hrest

/-- Specification of `pickBest` started from `some a`: the result exists,
its score dominates the initial best and every list element, and it is
either the initial best itself or the earliest strictly-greater-scoring
list element. -/
lemma pickBest_some_spec :
    ∀ (l : List ExportableRows) (a : ExportableRows),
      ∃ b, pickBest (some a) l = some b ∧ a.score ≤ b.score ∧
        (b = a ∨ ∃ l₁ l₂, l = l₁ ++ b :: l₂ ∧ a.score < b.score ∧
          ∀ c ∈ l₁, c.score < b.score) ∧
        ∀ c ∈ l, c.score ≤ b.score := by
  intro l
  induction l with
  | nil => exact fun a => ⟨a, rfl, le_refl _, Or.inl rfl, by simp⟩
  | cons c t ih =>
    intro a
    by_cases hc : c.score > a.score
    · obtain ⟨b, hb, hcb, hdisj, hmem⟩ := ih c
      refine ⟨b, ?_, by omega, ?_, ?_⟩
      · show pickBest (if c.score > a.score then some c else some a) t = some b
        rw [if_pos hc]
        exact hb
      · rcases hdisj with hba | ⟨t₁, t₂, ht, hlt, hall⟩
        · exact Or.inr ⟨[], t, by simp [hba], by omega, by simp⟩
        · refine Or.inr ⟨c :: t₁, t₂, by rw [ht]; rfl, by omega, ?_⟩
          intro x hx
          rcases List.mem_cons.mp hx with hxc | hxm
          · subst hxc; omega
          · exact hall x hxm
      · intro x hx
        rcases List.mem_cons.mp hx with hxc | hxm
        · subst hxc; omega
        · exact hmem x hxm
    · obtain ⟨b, hb, hab, hdisj, hmem⟩ := ih a
      refine ⟨b, ?_, hab, ?_, ?_⟩
      · show pickBest (if c.score > a.score then some c else some a) t = some b
        rw [if_neg hc]
        exact hb
      · rcases hdisj with hba | ⟨t₁, t₂, ht, hlt, hall⟩
        · exact Or.inl hba
        · refine Or.inr ⟨c :: t₁, t₂, by rw [ht]; rfl, hlt, ?_⟩
          intro x hx
          rcases List.mem_cons.mp hx with hxc | hxm
          · subst hxc; omega
          · exact hall x hxm
      · intro x hx
        rcases List.mem_cons.mp hx with hxc | hxm
        · subst hxc; omega
        · exact hmem x hxm

/-- Specification of `pickBest` started from `none` (as at the beginning
of discovery): the result is a member of the candidate list, every
candidate's score is at most the result's, and everything discovered
strictly before the result has a strictly smaller score — equal scores
keep the earlier-discovered candidate. -/
lemma pickBest_none_spec (l : List ExportableRows) (b : ExportableRows)
    (h : pickBest none l = some b) :
    b ∈ l ∧ (∀ c ∈ l, c.score ≤ b.score) ∧
      ∃ l₁ l₂, l = l₁ ++ b :: l₂ ∧ ∀ c ∈ l₁, c.score < b.score := by
  cases l with
  | nil => exact absurd h (by simp [pickBest])
  | cons c t =>
    have h2 : pickBest (some c) t = some b := h
    obtain ⟨b', hb', hcb, hdisj, hmem⟩ := pickBest_some_spec t c
    rw [hb'] at h2
    obtain rfl : b' = b := by injection h2
    refine ⟨?_, ?_, ?_⟩
    · rcases hdisj with hbc | ⟨t₁, t₂, ht, _, _⟩
      · simp [hbc]
      · rw [ht]; simp
    · intro x hx
      rcases List.mem_cons.mp hx with hxc | hxm
      · subst hxc; exact hcb
      · exact hmem x hxm
    · rcases hdisj with hbc | ⟨t₁, t₂, ht, hlt, hall⟩
      · exact ⟨[], t, by rw [hbc]; rfl, by simp⟩
      · refine ⟨c :: t₁, t₂, by rw [ht]; rfl, ?_⟩
        intro x hx
        rcases List.mem_cons.mp hx with hxc | hxm
        · subst hxc; omega
        · exact hall x hxm

/-- Every candidate the traversal ever constructs has rows drawn from the
source's row filter (the empty-array placeholder has no rows at all), so
its rows all pass `rowFilter`. -/
lemma searchLoop_cands_rows (o : SearchOptions) :
    ∀ fuel q best cc ic, ∀ c ∈ (searchLoop o fuel q best cc ic).cands,
      ∀ v ∈ c.rows, rowFilter o.allowEmptyObjectRows v = true := by
  intro fuel
  induction fuel with
  | zero =>
    intro q best cc ic c hc
    cases q <;> simp [searchLoop] at hc
  | succ fuel ih =>
    intro q best cc ic c hc
    cases q with
    | nil => simp [searchLoop] at hc
    | cons item rest =>
      simp only [searchLoop] at hc
      split at hc
      · exact ih _ _ _ _ c hc
      · split at hc
        · exact ih _ _ _ _ c hc
        · split at hc
          · split at hc
            · exact ih _ _ _ _ c hc
            · split at hc
              · split at hc
                · rcases List.mem_cons.mp hc with hceq | hcm
                  · subst hceq; simp
                  · exact ih _ _ _ _ c hcm
                · exact ih _ _ _ _ c hc
              · split at hc
                · exact ih _ _ _ _ c hc
                · split at hc
                  · exact ih _ _ _ _ c hc
                  · split at hc
                    · simp at hc
                    · rcases List.mem_cons.mp hc with hceq | hcm
                      · subst hceq
                        intro v hv
                        exact (List.mem_filter.mp hv).2
                      · exact ih _ _ _ _ c hcm
          · split at hc
            · exact ih _ _ _ _ c hc
            · exact ih _ _ _ _ c hc

/-! ### Claim theorems: discovery engine, concrete behavior -/

/-- C1: for the payload `{ data: { users: [{id:1,name:"Ana"}], meta:
{total:1} } }` with default configuration, `findExportableRows` returns a
candidate with path `root.data.users`, rows `[{id:1,name:"Ana"}]` and
depth 2; the subtree under the excluded token `meta` is never selected. -/
theorem claim_C1 :
    (findExportableRows payloadC1).map (·.path) = some "root.data.users" ∧
    (findExportableRows payloadC1).map (·.rows) =
      some [.vobj [("id", .vnum 1), ("name", .vstr "Ana")]] ∧
    (findExportableRows payloadC1).map (·.depth) = some 2 := by
  refine ⟨rfl, rfl, rfl⟩

/-- C3: with `maxCandidates := 1` over three sibling qualifying arrays,
the returned candidate is the first array in traversal order with
`candidateCount = 1`, and traversal stops early (the `break` fires after
4 inspected nodes, against 5 for the uncapped traversal), keeping the
best candidate found so far. -/
theorem claim_C3 :
    (findExportableRows payloadC3 (.opts { maxCandidates := some 1 })).map (·.path) =
      some "root.data.first" ∧
    (findExportableRows payloadC3 (.opts { maxCandidates := some 1 })).map (·.rows) =
      some [.vobj [("id", .vnum 1)]] ∧
    (findExportableRows payloadC3 (.opts { maxCandidates := some 1 })).map (·.candidateCount) =
      some 1 ∧
    (findExportableRowsTrace payloadC3 (.opts { maxCandidates := some 1 })).broke = true ∧
    (findExportableRowsTrace payloadC3 (.opts { maxCandidates := some 1 })).inspectedTotal = 4 ∧
    (findExportableRowsTrace payloadC3).broke = false ∧
    (findExportableRowsTrace payloadC3).inspectedTotal = 5 := by
  refine ⟨rfl, rfl, rfl, rfl, rfl, rfl, rfl⟩

/-- The `maxInspectedNodes` guard never lets the inspected-node counter
pass the cap. -/
lemma specSearchLoop_inspected_le (o : SearchOptions) (cap : Nat) :
    ∀ fuel q best cc ic, ic ≤ cap →
      (specSearchLoop o cap fuel q best cc ic).2 ≤ cap := by
  intro fuel
  induction fuel with
  | zero =>
    intro q best cc ic h
    cases q <;> simp [specSearchLoop, h]
  | succ fuel ih =>
    intro q best cc ic h
    cases q with
    | nil => simpa [specSearchLoop] using h
    | cons item rest =>
      by_cases hcap : ic ≥ cap
      · simp [specSearchLoop, hcap, h]
      · have h1 : ic + 1 ≤ cap := by omega
        simp only [specSearchLoop, if_neg hcap]
        split
        · exact ih _ _ _ _ h1
        · split
          · exact ih _ _ _ _ h1
          · split
            · split
              · exact ih _ _ _ _ h1
              · split
                · split
                  · exact ih _ _ _ _ h1
                  · exact ih _ _ _ _ h1
                · split
                  · exact ih _ _ _ _ h1
                  · split
                    · exact ih _ _ _ _ h1
                    · split
                      · exact h1
                      · exact ih _ _ _ _ h1
            · split
              · exact ih _ _ _ _ h1
              · exact ih _ _ _ _ h1

/-- C6: with a `maxInspectedNodes` cap supplied, traversal never inspects
more nodes than the cap; on the nested payload `{data:{a:{b:{c:[{id:1}]}}}}`
a cap of 2 stops traversal before any qualifying candidate is found and
returns `null`, while a cap of 10 lets discovery reach `root.data.a.b.c`. -/
theorem claim_C6 :
    (∀ payload options cap,
      (findExportableRowsSpec payload options cap).2 ≤ cap) ∧
    findExportableRowsSpec payloadC6 (.opts {}) 2 = (none, 2) ∧
    (findExportableRowsSpec payloadC6 (.opts {}) 10).1.map (·.path) =
      some "root.data.a.b.c" := by
  refine ⟨?_, rfl, rfl⟩
  intro payload options cap
  unfold findExportableRowsSpec
  split
  · simp
  · exact specSearchLoop_inspected_le _ cap _ _ _ _ _ (Nat.zero_le cap)

/-- The returned best candidate of a whole discovery call is the
`pickBest` fold over all candidates in discovery order. -/
lemma findTrace_best_eq_pickBest (payload : Value) (options : ExportSearchInput) :
    (findExportableRowsTrace payload options).best =
      pickBest none (findExportableRowsTrace payload options).cands := by
  unfold findExportableRowsTrace
  split
  · simp [pickBest]
  · exact searchLoop_best_eq_pickBest _ _ _ _ _ _ (by simp [queueSize])

/-- A returned candidate is one of the candidates constructed during
traversal (with the counter snapshots it was constructed with). -/
lemma find_mem_cands (payload : Value) (options : ExportSearchInput)
    (b : ExportableRows) (hb : findExportableRows payload options = some b) :
    b ∈ (findExportableRowsTrace payload options).cands := by
  have h : pickBest none (findExportableRowsTrace payload options).cands = some b := by
    rw [← findTrace_best_eq_pickBest]
    exact hb
  exact (pickBest_none_spec _ _ h).1

/-- C2: whenever discovery returns a candidate and traversal ran to
completion without hitting the candidate-cap guard, the returned
candidate's score dominates the score of every candidate discovered by
the traversal, and every candidate discovered strictly before the
returned one scores strictly less — so equal scores keep the
earlier-discovered candidate, and the best is replaced only on a strictly
greater score. -/
theorem claim_C2 (payload : Value) (options : ExportSearchInput)
    (b : ExportableRows) (hb : findExportableRows payload options = some b)
    (_hnb : (findExportableRowsTrace payload options).broke = false) :
    (∀ c ∈ (findExportableRowsTrace payload options).cands, c.score ≤ b.score) ∧
    ∃ l₁ l₂, (findExportableRowsTrace payload options).cands = l₁ ++ b :: l₂ ∧
      ∀ c ∈ l₁, c.score < b.score := by
  have h : pickBest none (findExportableRowsTrace payload options).cands = some b := by
    rw [← findTrace_best_eq_pickBest]
    exact hb
  obtain ⟨_, hle, l₁, l₂, hdec, hlt⟩ := pickBest_none_spec _ _ h
  exact ⟨hle, l₁, l₂, hdec, hlt⟩

/-- Witness for C2: the default-configuration discovery over `payloadC1`
returns the `root.data.users` candidate (score 12), which dominates every
discovered candidate. -/
theorem claim_C2_witness :
    (∀ c ∈ (findExportableRowsTrace payloadC1 (.opts {})).cands,
      c.score ≤ (⟨[.vobj [("id", .vnum 1), ("name", .vstr "Ana")]],
        "root.data.users", 2, 12, 1, 3⟩ : ExportableRows).score) ∧
    ∃ l₁ l₂, (findExportableRowsTrace payloadC1 (.opts {})).cands =
        l₁ ++ (⟨[.vobj [("id", .vnum 1), ("name", .vstr "Ana")]],
          "root.data.users", 2, 12, 1, 3⟩ : ExportableRows) :: l₂ ∧
      ∀ c ∈ l₁, c.score <
        (⟨[.vobj [("id", .vnum 1), ("name", .vstr "Ana")]],
          "root.data.users", 2, 12, 1, 3⟩ : ExportableRows).score :=
  claim_C2 payloadC1 (.opts {}) _ rfl rfl

/-- C8: every row of a returned candidate is a plain object in the
source's sense (`typeof === 'object'`, non-`null`, not an array — so
never an array, a scalar, or `null`), and when the resolved
`allowEmptyObjectRows` is `false` every row additionally has at least one
own key. -/
theorem claim_C8 (payload : Value) (options : ExportSearchInput)
    (b : ExportableRows) (hb : findExportableRows payload options = some b) :
    ∀ v ∈ b.rows, isPlainObject v = true ∧
      ((resolveOptions options).allowEmptyObjectRows = false →
        (objKeys v).length > 0) := by
  intro v hv
  have hmem := find_mem_cands payload options b hb
  have hfilter : rowFilter (resolveOptions options).allowEmptyObjectRows v = true := by
    revert hmem
    unfold findExportableRowsTrace
    split
    · intro hmem; simp at hmem
    · intro hmem
      exact searchLoop_cands_rows _ _ _ _ _ _ b hmem v hv
  rw [rowFilter, Bool.and_eq_true] at hfilter
  obtain ⟨hp, hrest⟩ := hfilter
  refine ⟨hp, fun hfalse => ?_⟩
  rw [hfalse] at hrest
  simpa using hrest

/-- Witness for C8: the row returned for `payloadC1` is a plain object
with at least one key. -/
theorem claim_C8_witness :
    isPlainObject (.vobj [("id", .vnum 1), ("name", .vstr "Ana")]) = true ∧
    ((resolveOptions (.opts {})).allowEmptyObjectRows = false →
      (objKeys (.vobj [("id", .vnum 1), ("name", .vstr "Ana")])).length > 0) :=
  claim_C8 payloadC1 (.opts {})
    ⟨[.vobj [("id", .vnum 1), ("name", .vstr "Ana")]], "root.data.users", 2, 12, 1, 3⟩
    rfl (.vobj [("id", .vnum 1), ("name", .vstr "Ana")]) (by simp)

/-- C10: the `candidateCount`/`inspectedNodeCount` fields of a returned
candidate are the counter snapshots taken when that candidate record was
constructed (the candidate list records each construction), not the
final totals of the traversal: over `payloadC10` the winning candidate
carries `candidateCount = 1` and `inspectedNodeCount = 3` while the
traversal in total scored 2 candidates and inspected 4 nodes. -/
theorem claim_C10 :
    (∀ payload options b, findExportableRows payload options = some b →
      b ∈ (findExportableRowsTrace payload options).cands) ∧
    ((findExportableRows payloadC10).map (·.candidateCount) = some 1 ∧
     (findExportableRowsTrace payloadC10).candidateTotal = 2 ∧
     (findExportableRows payloadC10).map (·.inspectedNodeCount) = some 3 ∧
     (findExportableRowsTrace payloadC10).inspectedTotal = 4) :=
  ⟨find_mem_cands, rfl, rfl, rfl, rfl⟩

/-- Witness for C10: the winning candidate record of `payloadC10`, with
its construction-time snapshots, is among the traversal's candidates. -/
theorem claim_C10_witness :
    (⟨[.vobj [("id", .vnum 1)], .vobj [("id", .vnum 2)]],
      "root.data.users", 2, 14, 1, 3⟩ : ExportableRows) ∈
      (findExportableRowsTrace payloadC10 (.opts {})).cands :=
  claim_C10.1 payloadC10 (.opts {}) _ rfl

/-- C7: the discovery function is total (it is a Lean function); a
`null`/`undefined` payload returns `null` immediately, and a negative
(resolved) `maxDepth` — in particular a negative legacy numeric argument —
makes every traversal return `null` rather than fail. -/
theorem claim_C7 :
    (∀ options, findExportableRows .vnull options = none ∧
      findExportableRows .vundef options = none) ∧
    (∀ payload options, (resolveOptions options).maxDepth < 0 →
      findExportableRows payload options = none) := by
  refine ⟨fun options => ⟨rfl, rfl⟩, ?_⟩
  intro payload options h
  unfold findExportableRows findExportableRowsTrace
  split
  · rfl
  · show (searchLoop (resolveOptions options) (payload.size + 1)
      [⟨payload, "root", 0⟩] none 0 0).best = none
    rw [searchLoop]
    rw [if_pos (by simpa using by omega : ((0 : Nat) : Int) > (resolveOptions options).maxDepth)]
    simp [searchLoop]

/-- Witness for C7 at concrete inputs: a plain-object payload with the
legacy numeric argument `-1`, and the `null` payload. -/
theorem claim_C7_witness :
    findExportableRows (.vobj [("a", .vnum 1)]) (.num (-1)) = none ∧
    findExportableRows .vnull (.opts {}) = none := by
  refine ⟨claim_C7.2 _ _ (by decide), (claim_C7.1 (.opts {})).1⟩

/-! ### Flattening and CSV claims -/

/-- Appending on the left is cancellable for strings. -/
lemma str_append_cancel_left (s a b : String) (h : s ++ a = s ++ b) : a = b := by
  have h2 : s.data ++ a.data = s.data ++ b.data := by
    simpa [String.data_append] using congrArg String.data h
  exact String.ext (List.append_cancel_left h2)

/-- With a nonempty prefix, the flattened key is the dotted path. -/
lemma dottedKey_of_ne (pre k : String) (h : pre.length ≠ 0) :
    dottedKey pre k = pre ++ "." ++ k := by
  simp [dottedKey, h, String.append_assoc]

/-- Assigning a key absent from the accumulator appends the entry. -/
lemma objInsert_fresh (acc : List (String × Value)) (k : String) (v : Value)
    (h : ∀ a ∈ acc, a.1 ≠ k) : objInsert acc k v = acc ++ [(k, v)] := by
  rw [objInsert, if_neg]
  simp only [List.any_eq_true, beq_iff_eq, not_exists]
  intro a
  intro hmem
  exact absurd hmem.2 (h a hmem.1)

/-- An entry list is at least as long as its size (every value has
positive size), so `sizeEntries` is a sufficient flattening fuel. -/
lemma flatten_entries_length_le (l : List (String × Value)) :
    l.length ≤ sizeEntries l := by
  induction l with
  | nil => simp [sizeEntries]
  | cons e t ih =>
    obtain ⟨k, v⟩ := e
    have := Value.size_pos v
    simp [sizeEntries]
    omega

/-- On entries whose values are all atomic (not plain objects), the
fuelled flattening is a fold of dotted-key assignments. -/
lemma flattenEntriesF_atomic :
    ∀ (entries : List (String × Value)) (fuel : Nat) (pre : String)
      (acc : List (String × Value)),
      entries.length ≤ fuel → (∀ e ∈ entries, isPlainObject e.2 = false) →
      flattenEntriesF fuel pre entries acc =
        entries.foldl (fun a e => objInsert a (dottedKey pre e.1) e.2) acc := by
  intro entries
  induction entries with
  | nil => intro fuel pre acc _ _; simp [flattenEntriesF]
  | cons e t ih =>
    intro fuel pre acc hf hato
    obtain ⟨k, v⟩ := e
    obtain ⟨m, rfl⟩ : ∃ m, fuel = m + 1 := ⟨fuel - 1, by simp at hf; omega⟩
    have hv : isPlainObject v = false := hato (k, v) (by simp)
    rw [flattenEntriesF, if_neg (by simp [hv])]
    rw [ih m pre _ (by simp at hf; omega) (fun e he => hato e (by simp [he]))]
    rfl

/-- Folding assignments of pairwise-distinct keys, none already present,
appends them all in order. -/
lemma foldl_objInsert_fresh (g : String → String) :
    ∀ (l acc : List (String × Value)),
      (l.map fun e => g e.1).Nodup → (∀ e ∈ l, ∀ a ∈ acc, a.1 ≠ g e.1) →
      l.foldl (fun a e => objInsert a (g e.1) e.2) acc =
        acc ++ (l.map fun e => (g e.1, e.2)) := by
  intro l
  induction l with
  | nil => intro acc _ _; simp
  | cons e t ih =>
    intro acc hnd hfresh
    obtain ⟨k, v⟩ := e
    simp only [List.foldl_cons]
    rw [objInsert_fresh acc (g k) v (fun a ha => hfresh (k, v) (by simp) a ha)]
    have hnd2 : (t.map fun e => g e.1).Nodup :=
      (List.nodup_cons.mp (by simpa using hnd)).2
    have hk : g k ∉ t.map fun e => g e.1 :=
      (List.nodup_cons.mp (by simpa using hnd)).1
    rw [ih (acc ++ [(g k, v)]) hnd2 ?_]
    · simp
    · intro e he a ha
      rcases List.mem_append.mp ha with hacc | hkv
      · exact hfresh e (List.mem_cons_of_mem _ he) a hacc
      · have : a = (g k, v) := by simpa using hkv
        subst this
        intro hcontra
        have hke : g k = g e.1 := hcontra
        exact hk (by rw [hke]; exact List.mem_map_of_mem _ he)

/-- Flattening a single-entry row whose value is atomic (not a plain
object in the source's sense) leaves the row unchanged. -/
lemma flattenObject_singleton_atomic (k : String) (v : Value)
    (h : isPlainObject v = false) :
    flattenObject [(k, v)] "" = [(k, v)] := by
  show flattenEntriesF (sizeEntries [(k, v)]) "" [(k, v)] [] = [(k, v)]
  rw [flattenEntriesF_atomic [(k, v)] _ "" [] (flatten_entries_length_le _)
    (by intro e he; simp at he; rw [he]; exact h)]
  simp [objInsert, dottedKey]

/-- Flattening a single-entry row whose value is a nested plain object of
atomic values with distinct keys inlines them under dotted-path keys. -/
lemma flattenObject_singleton_obj (k : String) (inner : List (String × Value))
    (hk : k.length ≠ 0)
    (hato : ∀ e ∈ inner, isPlainObject e.2 = false)
    (hnd : (inner.map (·.1)).Nodup) :
    flattenObject [(k, .vobj inner)] "" =
      inner.map fun e => (k ++ "." ++ e.1, e.2) := by
  have hinj : Function.Injective fun x : String => k ++ "." ++ x := by
    intro a b hab
    exact str_append_cancel_left "." a b (str_append_cancel_left k _ _ (by
      simpa [String.append_assoc] using hab))
  have hm : sizeEntries [(k, Value.vobj inner)] = sizeEntries inner + 1 := by
    simp [sizeEntries, Value.size]
    omega
  show flattenEntriesF (sizeEntries [(k, Value.vobj inner)]) "" [(k, Value.vobj inner)] [] = _
  rw [hm, flattenEntriesF, if_pos (by rfl)]
  simp only [objEntries]
  rw [flattenEntriesF_atomic inner _ (dottedKey "" k) [] (flatten_entries_length_le _) hato]
  have hgi : ∀ a b : String, dottedKey k a = dottedKey k b → a = b := by
    intro a b hab
    rw [dottedKey_of_ne k a hk, dottedKey_of_ne k b hk] at hab
    exact hinj hab
  have hnd2 : (inner.map fun e => dottedKey k e.1).Nodup := by
    have : (inner.map fun e => dottedKey k e.1) =
        (inner.map (·.1)).map (dottedKey k) := by
      rw [List.map_map]
      rfl
    rw [this]
    exact hnd.map fun a b => hgi a b
  have hfold := foldl_objInsert_fresh (dottedKey k) inner [] hnd2 (by simp)
  rw [show dottedKey (dottedKey "" k) = dottedKey k from rfl, hfold]
  have hassign : ∀ l2 : List (String × Value), (l2.map (·.1)).Nodup →
      objAssign [] l2 = l2 := by
    intro l2 hl2
    show l2.foldl (fun a e => objInsert a e.1 e.2) [] = l2
    have := foldl_objInsert_fresh id l2 [] (by simpa using hl2) (by simp)
    simpa using this
  rw [flattenEntriesF]
  rw [hassign _ (by simpa [List.map_map] using hnd2)]
  apply List.map_congr_left
  intro e he
  rw [dottedKey_of_ne k e.1 hk]

/-- C4 counterexample: contrary to the claim that `Date` values are left
in place as atomic values, the flattener of `exportUtils.ts` recurses
into a `Date` (its `typeof` is `'object'`), finds no own enumerable keys,
and drops the field entirely: `{ d: Date }` flattens to `{}`. -/
theorem claim_C4_counterexample :
    flattenObject [("d", .vdate 0)] "" = [] := rfl

/-- C4 (amended): the row flattener leaves atomic values — arrays and
scalars, but not `Date`s — in place, inlines nested plain-object values
under dotted-path keys, and recurses into `Date` values like any other
non-array object, dropping the field since a `Date` has no own enumerable
keys. -/
theorem claim_C4 :
    (∀ k v, isPlainObject v = false → flattenObject [(k, v)] "" = [(k, v)]) ∧
    (∀ (k : String) (inner : List (String × Value)), k.length ≠ 0 →
      (∀ e ∈ inner, isPlainObject e.2 = false) → (inner.map (·.1)).Nodup →
      flattenObject [(k, .vobj inner)] "" =
        inner.map fun e => (k ++ "." ++ e.1, e.2)) ∧
    (∀ k t, flattenObject [(k, .vdate t)] "" = []) :=
  ⟨flattenObject_singleton_atomic, flattenObject_singleton_obj, fun _ _ => rfl⟩

/-- Witness for C4: an array-valued field is kept atomic, `{a:{b:1}}`
flattens to the dotted key `a.b` with value `1`, and a `Date`-valued
field is dropped. -/
theorem claim_C4_witness :
    flattenObject [("tags", .varr [.vnum 1, .vnum 2])] "" =
      [("tags", .varr [.vnum 1, .vnum 2])] ∧
    flattenObject [("a", .vobj [("b", .vnum 1)])] "" = [("a" ++ "." ++ "b", .vnum 1)] ∧
    flattenObject [("d", .vdate 5)] "" = [] :=
  ⟨claim_C4.1 "tags" (.varr [.vnum 1, .vnum 2]) rfl,
   claim_C4.2.1 "a" [("b", .vnum 1)] (by decide) (by decide) (by decide),
   claim_C4.2.2 "d" 5⟩

/-- C9: CSV conversion quotes exactly those cells that contain the
delimiter, a double quote or a line break (doubling embedded double
quotes), and the worked example from the spec produces exactly
`name,bio\n"John, Doe","He said ""Hello"""`. -/
theorem claim_C9 :
    (∀ s : String, convertArrayToCSV [[("h", .vstr s)]] =
      "h\n" ++ (if s.data.contains ',' || s.data.contains '"' || s.data.contains '\n'
        then "\"" ++ (⟨csvEscape.replaceQuotes s.data⟩ : String) ++ "\"" else s)) ∧
    convertArrayToCSV [[("name", .vstr "John, Doe"), ("bio", .vstr "He said \"Hello\"")]] =
      "name,bio\n\"John, Doe\",\"He said \"\"Hello\"\"\"" :=
  ⟨fun _ => rfl, rfl⟩

/-- C5: with `excelSafeMode` enabled, a cell whose string begins with
`=`, `+`, `-` or `@` is prefixed with a single quote before CSV escaping;
in particular the cell `=HYPERLINK("x")` is emitted as
`"'=HYPERLINK(""x"")"`. -/
theorem claim_C5 :
    (∀ (s : String) (c : Char), s.data.head? = some c →
      (c = '=' ∨ c = '+' ∨ c = '-' ∨ c = '@') →
      convertArrayToCSVSafe true [[("h", .vstr s)]] =
        "h\n" ++ csvEscape (singleQuote ++ s)) ∧
    convertArrayToCSVSafe true [[("name", .vstr "=HYPERLINK(\"x\")")]] =
      "name\n\"" ++ singleQuote ++ "=HYPERLINK(\"\"x\"\")\"" := by
  refine ⟨?_, rfl⟩
  intro s c hc h
  cases hd : s.data with
  | nil => rw [hd] at hc; simp at hc
  | cons c0 rest =>
    rw [hd] at hc
    obtain rfl : c0 = c := by simpa using hc
    show "h" ++ "\n" ++ csvEscape (hardenCell true s) = _
    have hh : hardenCell true s = singleQuote ++ s := by
      unfold hardenCell
      rw [hd]
      rw [if_pos (by rcases h with rfl | rfl | rfl | rfl <;> rfl)]
    rw [hh]
    rfl

/-- Witness for C5: the formula-leading cell `=Formula` is quote-prefixed
then escaped. -/
theorem claim_C5_witness :
    convertArrayToCSVSafe true [[("h", .vstr "=Formula")]] =
      "h\n" ++ csvEscape (singleQuote ++ "=Formula") :=
  claim_C5.1 "=Formula" (Char.ofNat 61) rfl (Or.inl rfl)

end Graphboarder
